import Mathlib

/-! rl_utils

A shallow embedding of `src/rl_utils.cpp` (direction/offset conversion, the random-number
facade, clamping helpers and the geometric helpers) together with the properties its
specification states about it.

Conventions of the embedding:

* C++ `int` is `Int`.  In the geometric helpers the properties are stated for executions
  in which no `int` operation overflows, and the arithmetic is that of `Int`.  In the
  random-number functions every `int` operation is written with `int_add`, `int_sub` and
  `int_mul`, which reduce the result into the 32-bit range (`wrap_int`), so that sums too
  large for an `int` are visible in the model.
* `std::min`, `std::max` and `abs` are written out as the comparisons they perform.
* The Mersenne-Twister object is not part of the sources; it is represented by the values
  its `randInt` calls return for the bound they are asked for, together with the contract
  of `randInt` (see `MTRand`).
-/

namespace RlUtils

/-! ## Data model (declared in rl_utils.hpp) -/

/-- A 2D integer point or offset, `P(x, y)` of the header. -/
structure P where
  x : Int
  y : Int
deriving DecidableEq

/-- A rectangle `R` with corners `p0` (upper left) and `p1` (lower right). -/
structure R where
  p0 : P
  p1 : P
deriving DecidableEq

/-- The enumeration `Dir`: the eight neighbours, the centre, and the sentinel `END`. -/
inductive Dir where
  | down_left
  | down
  | down_right
  | left
  | center
  | right
  | up_left
  | up
  | up_right
  | END
deriving DecidableEq

/-- `std::min(a, b)`: returns `b` when `b < a`, otherwise `a`. -/
def std_min (a b : Int) : Int := if b < a then b else a

/-- `std::max(a, b)`: returns `b` when `a < b`, otherwise `a`. -/
def std_max (a b : Int) : Int := if a < b then b else a

/-- The C library `abs(int)`. -/
def std_abs (v : Int) : Int := if v < 0 then -v else v

/-- `INT_MAX` of a 32-bit `int`. -/
def INT_MAX : Int := 2147483647

/-! ## dir_utils -/

namespace dir_utils

/-- `Dir dir(const P& offset)` (lines 65-97).  The leading `ASSERT` states the precondition
`-1 <= x, y <= 1`; outside it the function falls through to `Dir::END`. -/
def dir (offset : P) : Dir :=
  if offset.y = -1 then
    (if offset.x = -1 then Dir.up_left
     else if offset.x = 0 then Dir.up
     else if offset.x = 1 then Dir.up_right
     else Dir.END)
  else if offset.y = 0 then
    (if offset.x = -1 then Dir.left
     else if offset.x = 0 then Dir.center
     else if offset.x = 1 then Dir.right
     else Dir.END)
  else if offset.y = 1 then
    (if offset.x = -1 then Dir.down_left
     else if offset.x = 0 then Dir.down
     else if offset.x = 1 then Dir.down_right
     else Dir.END)
  else Dir.END

/-- `P offset(const Dir dir)` (lines 99-137).  The `ASSERT(dir != Dir::END)` is the
precondition; for `END` the switch returns `P(0, 0)`. -/
def offset (dir : Dir) : P :=
  match dir with
  | Dir.down_left  => ⟨-1, 1⟩
  | Dir.down       => ⟨0, 1⟩
  | Dir.down_right => ⟨1, 1⟩
  | Dir.left       => ⟨-1, 0⟩
  | Dir.center     => ⟨0, 0⟩
  | Dir.right      => ⟨1, 0⟩
  | Dir.up_left    => ⟨-1, -1⟩
  | Dir.up         => ⟨0, -1⟩
  | Dir.up_right   => ⟨1, -1⟩
  | Dir.END        => ⟨0, 0⟩

end dir_utils

/-! ## Distances -/

/-- `int king_dist(const int x0, const int y0, const int x1, const int y1)` (lines 449-452). -/
def king_dist_xy (x0 y0 x1 y1 : Int) : Int :=
  std_max (std_abs (x1 - x0)) (std_abs (y1 - y0))

/-- `int king_dist(const P& p0, const P& p1)` (lines 454-457). -/
def king_dist (p0 p1 : P) : Int :=
  std_max (std_abs (p1.x - p0.x)) (std_abs (p1.y - p0.y))

/-- `int taxi_dist(const P& p0, const P& p1)` (lines 459-462). -/
def taxi_dist (p0 p1 : P) : Int :=
  std_abs (p1.x - p0.x) + std_abs (p1.y - p0.y)

/-- `P closest_pos(const P& p, const std::vector<P>& positions)` (lines 464-482), the
range-for loop: `dist_to_nearest` and `closest_pos` are the two locals it updates. -/
def closest_pos_loop (p : P) : List P → Int → P → P
  | [], _, closest => closest
  | p_cmp :: rest, dist_to_nearest, closest =>
    let cur_dist := king_dist p p_cmp
    if cur_dist < dist_to_nearest then
      closest_pos_loop p rest cur_dist p_cmp
    else
      closest_pos_loop p rest dist_to_nearest closest

/-- `closest_pos` itself: the loop started with `dist_to_nearest = INT_MAX` and the
default-constructed point.  The default constructor of `P` lives in the header, so the
point it builds is the parameter `p_default`. -/
def closest_pos (p_default : P) (p : P) (positions : List P) : P :=
  closest_pos_loop p positions INT_MAX p_default

/-! ## Random numbers (namespace rnd) -/

/-- `INT_MIN` of a 32-bit `int`. -/
def INT_MIN : Int := -2147483648

/-- The value an `int` holds after a computation whose mathematical result is `v`: `v`
itself when it is in `INT_MIN..INT_MAX`, and otherwise `v` reduced modulo `2^32` into that
range (two's-complement wrap-around, as the usual targets do). -/
def wrap_int (v : Int) : Int := (v + 2147483648) % 4294967296 - 2147483648

/-- The `int` sum `a + b`. -/
def int_add (a b : Int) : Int := wrap_int (a + b)

/-- The `int` difference `a - b`. -/
def int_sub (a b : Int) : Int := wrap_int (a - b)

/-- The `int` product `a * b`. -/
def int_mul (a b : Int) : Int := wrap_int (a * b)

/-- The generator `mt_rand` (class `MTRand` of mersenne_twister.hpp, which is not among the
sources).  Only `randInt(n)` is called on it, whose contract is to return an integer in
`0..n`.  The object is represented by the values its calls return: `out i n` is what call
number `i` returns when it is asked for the bound `n`, `calls` is the number of calls made
so far, and `contract` is the contract of `randInt`. -/
structure MTRand where
  out : Nat → Int → Int
  calls : Nat
  contract : ∀ (i : Nat) (n : Int), 0 ≤ n → 0 ≤ out i n ∧ out i n ≤ n

namespace MTRand

/-- One call `mt_rand.randInt(n)`: the value returned for the bound `n` and the generator
afterwards. -/
def randInt (mt : MTRand) (n : Int) : Int × MTRand :=
  (mt.out mt.calls n, { mt with calls := mt.calls + 1 })

/-- The generator whose next call returns `g` when it is asked for the bound `n` (and `g`
is one of the values `0..n` that `randInt(n)` can return); everything else is as in `mt`. -/
def returning (mt : MTRand) (n g : Int) : MTRand :=
  { out := fun i m => if i = mt.calls ∧ m = n ∧ 0 ≤ g ∧ g ≤ n then g else mt.out i m
    calls := mt.calls
    contract := by
      intro i m hm
      by_cases h : i = mt.calls ∧ m = n ∧ 0 ≤ g ∧ g ≤ n
      · dsimp only
        rw [if_pos h]
        exact ⟨h.2.2.1, h.2.1 ▸ h.2.2.2⟩
      · dsimp only
        rw [if_neg h]
        exact mt.contract i m hm }

/-- A generator every call of which returns the lowest value, 0. -/
def lowest : MTRand :=
  { out := fun _ _ => 0
    calls := 0
    contract := fun _ _ h => ⟨le_refl 0, h⟩ }

/-- A generator every call of which returns the highest value, the bound it is asked for. -/
def highest : MTRand :=
  { out := fun _ n => n
    calls := 0
    contract := fun _ _ h => ⟨h, le_refl _⟩ }

end MTRand

namespace rnd

/-- The `for` loop of `roll` (lines 249-254): `n` iterations still to run. -/
def roll_loop (sides : Int) : Nat → Int → MTRand → Int × MTRand
  | 0, result, mt => (result, mt)
  | n + 1, result, mt =>
    let r := mt.randInt (int_sub sides 1)
    roll_loop sides n (int_add result (int_add r.1 1)) r.2

/-- `int roll(const int rolls, const int sides)` (lines 237-257). -/
def roll (rolls sides : Int) (mt : MTRand) : Int × MTRand :=
  if sides ≤ 0 then (0, mt)
  else if sides = 1 then (int_mul rolls sides, mt)
  else roll_loop sides rolls.toNat 0 mt

/-- `bool fraction(const int numer, const int denom)` (lines 276-305).  The three `ASSERT`s
state the contract `denom >= 1`, `numer <= denom`, `numer >= 0`; the code after them is what
runs in every build. -/
def fraction (numer denom : Int) (mt : MTRand) : Bool × MTRand :=
  if numer ≤ 0 ∨ denom ≤ 0 then (false, mt)
  else if numer ≥ denom ∨ denom = 1 then (true, mt)
  else
    let r := roll 1 denom mt
    (decide (r.1 ≤ numer), r.2)

/-- `int range(const int v1, const int v2)` (lines 312-318). -/
def range (v1 v2 : Int) (mt : MTRand) : Int × MTRand :=
  let min := std_min v1 v2
  let max := std_max v1 v2
  let r := roll 1 (int_add (int_sub max min) 1) mt
  (int_sub (int_add min r.1) 1, r.2)

/-- `std::accumulate(begin(weights), end(weights), 0)`, summing in `int`. -/
def accumulate (weights : List Int) (init : Int) : Int :=
  weights.foldl (fun acc w => int_add acc w) init

/-- The `for` loop of `weighted_choice` (lines 343-353) on the weights not yet visited,
with the current value of `rnd` and the current index `i`.  `some i` is `return i` from
inside the loop; `none` means the loop ended without returning. -/
def weighted_choice_loop : List Int → Int → Nat → Option Nat
  | [], _, _ => none
  | weight :: rest, rnd, i =>
    if rnd < weight then some i
    else weighted_choice_loop rest (int_sub rnd weight) (i + 1)

/-- The body of `weighted_choice` up to the end of its loop (lines 339-353): the outcome of
the loop and the generator afterwards. -/
def weighted_choice_search (weights : List Int) (mt : MTRand) : Option Nat × MTRand :=
  let sum := accumulate weights 0
  let r := range 0 (int_sub sum 1) mt
  (weighted_choice_loop weights r.1 0, r.2)

/-- `int weighted_choice(const std::vector<int> weights)` (lines 330-359).  `return i`
converts the index to `int`.  When the loop ends without returning, control reaches
`ASSERT(false)` ("This point should never be reached") and, with assertions compiled out,
`return 0`. -/
def weighted_choice (weights : List Int) (mt : MTRand) : Int × MTRand :=
  match weighted_choice_search weights mt with
  | (some i, mt') => (wrap_int (i : Int), mt')
  | (none, mt') => (0, mt')

end rnd

/-! ## Clamping -/

/-- `void set_constr_in_range(const int min, int& val, const int max)` (lines 363-369):
the value of `val` after the call. -/
def set_constr_in_range (min val max : Int) : Int :=
  if max ≥ min then std_min max (std_max val min) else val

/-- `int constr_in_range(const int min, const int val, const int max)` (lines 379-387). -/
def constr_in_range (min val max : Int) : Int :=
  if max < min then -1 else std_min max (std_max val min)

/-! ## Dice and percent rolls -/

namespace rnd

/-- `int dice(const int rolls, const int sides)` (lines 266-269). -/
def dice (rolls sides : Int) (mt : MTRand) : Int × MTRand :=
  roll rolls sides mt

/-- `int percent()` (lines 320-323). -/
def percent (mt : MTRand) : Int × MTRand :=
  roll 1 100 mt

/-- `bool percent(const int pct_chance)` (lines 325-328). -/
def percent_chance (pct_chance : Int) (mt : MTRand) : Bool × MTRand :=
  let r := roll 1 100 mt
  (decide (pct_chance ≥ r.1), r.2)

end rnd

/-- The fields of `Dice_param` that `Dice_param::roll` reads. -/
structure Dice_param where
  rolls : Int
  sides : Int
  plus : Int

/-- `int Dice_param::roll() const` (lines 214-217). -/
def Dice_param.roll (d : Dice_param) (mt : MTRand) : Int × MTRand :=
  let r := rnd.dice d.rolls d.sides mt
  (int_add r.1 d.plus, r.2)

/-! ## Table-based compass names -/

namespace dir_utils

/-- The table `compass_dir_names[3][3]` (lines 44-49), row by row. -/
def compass_dir_names : List (List String) :=
  [["NW", "N", "NE"],
   ["W",  "",  "E"],
   ["SW", "S", "SE"]]

/-- The element `compass_dir_names[i][j]`.  Both indices are `int` expressions in the
source; an index outside `0..2` is an out-of-bounds read, represented by `none`. -/
def compass_dir_names_at (i j : Int) : Option String :=
  if 0 ≤ i ∧ 0 ≤ j then
    match compass_dir_names.get? i.toNat with
    | some row => row.get? j.toNat
    | none => none
  else none

/-- `void compass_dir_name(const Dir dir, std::string& dst)` (lines 200-205): the value
stored into `dst`. -/
def compass_dir_name_dir (dir : Dir) : Option String :=
  let o := offset dir
  compass_dir_names_at (o.x + 1) (o.y + 1)

/-- `void compass_dir_name(const P& offs, std::string& dst)` (lines 207-210): the value
stored into `dst`. -/
def compass_dir_name_offs (offs : P) : Option String :=
  compass_dir_names_at (offs.x + 1) (offs.y + 1)

end dir_utils

/-! ## Geometric predicates -/

/-- `bool is_pos_inside(const P& pos, const R& area)` (lines 420-427). -/
def is_pos_inside (pos : P) (area : R) : Bool :=
  decide (pos.x ≥ area.p0.x) && decide (pos.x ≤ area.p1.x) &&
    decide (pos.y ≥ area.p0.y) && decide (pos.y ≤ area.p1.y)

/-- `bool is_area_inside(const R& inner, const R& outer, const bool count_equal_as_inside)`
(lines 429-447). -/
def is_area_inside (inner outer : R) (count_equal_as_inside : Bool) : Bool :=
  if count_equal_as_inside then
    decide (inner.p0.x ≥ outer.p0.x) && decide (inner.p1.x ≤ outer.p1.x) &&
      decide (inner.p0.y ≥ outer.p0.y) && decide (inner.p1.y ≤ outer.p1.y)
  else
    decide (inner.p0.x > outer.p0.x) && decide (inner.p1.x < outer.p1.x) &&
      decide (inner.p0.y > outer.p0.y) && decide (inner.p1.y < outer.p1.y)

/-- `bool is_pos_adj(const P& pos1, const P& pos2, const bool count_same_cell_as_adj)`
(lines 484-502). -/
def is_pos_adj (pos1 pos2 : P) (count_same_cell_as_adj : Bool) : Bool :=
  if pos1.x < pos2.x - 1 ∨ pos1.x > pos2.x + 1 ∨ pos1.y < pos2.y - 1 ∨ pos1.y > pos2.y + 1 then
    false
  else if pos1.x = pos2.x ∧ pos1.y = pos2.y then
    count_same_cell_as_adj
  else
    true

/-! ## Flat array to vector -/

/-- Modelled from the spec: `operator+` of `P` is declared in the header, which is not
among the sources; `from_pos + offset(d)` is the component-wise sum. -/
def P.add (a b : P) : P := ⟨a.x + b.x, a.y + b.y⟩

/-- Modelled from the spec: `operator-` of `P` is declared in the header, which is not
among the sources; `to_pos - from_pos` is the component-wise difference. -/
def P.sub (a b : P) : P := ⟨a.x - b.x, a.y - b.y⟩

namespace dir_utils

/-- The compass name of a direction with up = north, as the specification lists them:
up is "N", up_right "NE", right "E", down_right "SE", down "S", down_left "SW", left "W",
up_left "NW", and center has the empty name.  `END` is no direction and gets the empty
name as well. -/
def compass_name : Dir → String
  | Dir.up         => "N"
  | Dir.up_right   => "NE"
  | Dir.right      => "E"
  | Dir.down_right => "SE"
  | Dir.down       => "S"
  | Dir.down_left  => "SW"
  | Dir.left       => "W"
  | Dir.up_left    => "NW"
  | Dir.center     => ""
  | Dir.END        => ""

/-- The constant `pi_db = 3.14159265` (line 51).  The `double`s of this part of the source
are elements of an ordered field `K`; their arithmetic is taken as exact. -/
def pi_db (K : Type) [LinearOrderedField K] : K := 3.14159265

/-- The constant `angle_45_db = 2 * pi_db / 8` (line 52). -/
def angle_45_db (K : Type) [LinearOrderedField K] : K := 2 * pi_db K / 8

/-- The constant `angle_45_half_db = angle_45_db / 2.0` (line 53). -/
def angle_45_half_db (K : Type) [LinearOrderedField K] : K := angle_45_db K / 2.0

/-- The table `edge[4]` (lines 55-61). -/
def edge (K : Type) [LinearOrderedField K] : Fin 4 → K
  | 0 => angle_45_half_db K + (angle_45_db K * 0)
  | 1 => angle_45_half_db K + (angle_45_db K * 1)
  | 2 => angle_45_half_db K + (angle_45_db K * 2)
  | 3 => angle_45_half_db K + (angle_45_db K * 3)

/-- The `if` chain of the angle-based `compass_dir_name` (lines 166-197) on the computed
`angle_db`: the value left in `dst`. -/
def compass_dir_name_of_angle {K : Type} [LinearOrderedField K] (angle_db : K) : String :=
  if angle_db < -edge K 2 ∧ angle_db > -edge K 3 then "SW"
  else if angle_db ≤ -edge K 1 ∧ angle_db ≥ -edge K 2 then "S"
  else if angle_db < -edge K 0 ∧ angle_db > -edge K 1 then "SE"
  else if angle_db ≥ -edge K 0 ∧ angle_db ≤ edge K 0 then "E"
  else if angle_db > edge K 0 ∧ angle_db < edge K 1 then "NE"
  else if angle_db ≥ edge K 1 ∧ angle_db ≤ edge K 2 then "N"
  else if angle_db > edge K 2 ∧ angle_db < edge K 3 then "NW"
  else "W"

/-- `void compass_dir_name(const P& from_pos, const P& to_pos, std::string& dst)`
(lines 157-198): the value left in `dst`.  The library function `atan2` is the parameter
`atan2`; its two `int` arguments are converted to `K`. -/
def compass_dir_name_angle {K : Type} [LinearOrderedField K] (atan2 : K → K → K)
    (from_pos to_pos : P) : String :=
  let offset := P.sub to_pos from_pos
  let angle_db := atan2 ((-offset.y : Int) : K) ((offset.x : Int) : K)
  compass_dir_name_of_angle angle_db

end dir_utils

/-! ## Time strings -/

theorem std_min_eq (a b : Int) : std_min a b = min a b := by
  unfold std_min
  split <;> omega

theorem std_max_eq (a b : Int) : std_max a b = max a b := by
  unfold std_max
  split <;> omega

theorem std_abs_eq (v : Int) : std_abs v = |v| := by
  unfold std_abs
  split
  · rename_i h
    exact (abs_of_neg h).symm
  · rename_i h
    exact (abs_of_nonneg (not_lt.mp h)).symm

/-! ## Direction / offset conversion -/

/-- C1: for each of the nine directions other than `END`, converting to an offset and back
gives the direction again, and `offset` is injective on those directions. -/
theorem dir_of_offset (d : Dir) (hd : d ≠ Dir.END) :
    dir_utils.dir (dir_utils.offset d) = d ∧
      ∀ e : Dir, e ≠ Dir.END → dir_utils.offset d = dir_utils.offset e → d = e := by
  refine ⟨?_, ?_⟩
  · cases d <;> first | rfl | exact absurd rfl hd
  · intro e he h
    cases d <;> cases e <;>
      first
        | rfl
        | exact absurd rfl hd
        | exact absurd rfl he
        | exact absurd h (by decide)

theorem dir_of_offset_witness :
    Dir.up_left ≠ Dir.END ∧ dir_utils.dir (dir_utils.offset Dir.up_left) = Dir.up_left :=
  ⟨by decide, (dir_of_offset Dir.up_left (by decide)).1⟩

/-- C2: for an offset inside the 3x3 neighbourhood (the precondition `dir` asserts), `dir`
does not return `END` and `offset` maps the direction back to the same offset. -/
theorem offset_of_dir (p : P) (hx0 : -1 ≤ p.x) (hx1 : p.x ≤ 1) (hy0 : -1 ≤ p.y)
    (hy1 : p.y ≤ 1) :
    dir_utils.dir p ≠ Dir.END ∧ dir_utils.offset (dir_utils.dir p) = p := by
  obtain ⟨x, y⟩ := p
  simp only at hx0 hx1 hy0 hy1
  interval_cases x <;> interval_cases y <;> exact ⟨by decide, by decide⟩

theorem offset_of_dir_witness :
    dir_utils.dir ⟨1, -1⟩ ≠ Dir.END ∧ dir_utils.offset (dir_utils.dir ⟨1, -1⟩) = ⟨1, -1⟩ :=
  offset_of_dir ⟨1, -1⟩ (by decide) (by decide) (by decide) (by decide)

/-! ## Distances -/

/-- C3: both overloads of `king_dist` return the Chebyshev distance
`max(|x1 - x0|, |y1 - y0|)`, and they agree with each other. -/
theorem king_dist_chebyshev (x0 y0 x1 y1 : Int) :
    king_dist_xy x0 y0 x1 y1 = max |x1 - x0| |y1 - y0| ∧
      king_dist ⟨x0, y0⟩ ⟨x1, y1⟩ = max |x1 - x0| |y1 - y0| ∧
      king_dist ⟨x0, y0⟩ ⟨x1, y1⟩ = king_dist_xy x0 y0 x1 y1 := by
  simp only [king_dist_xy, king_dist, std_max_eq, std_abs_eq, and_self]

/-- C4: `taxi_dist` returns the Manhattan distance `|p1.x - p0.x| + |p1.y - p0.y|`. -/
theorem taxi_dist_manhattan (p0 p1 : P) :
    taxi_dist p0 p1 = |p1.x - p0.x| + |p1.y - p0.y| := by
  simp only [taxi_dist, std_abs_eq]

/-! ## The random-number facade -/

theorem wrap_int_of_range (v : Int) (h0 : INT_MIN ≤ v) (h1 : v ≤ INT_MAX) : wrap_int v = v := by
  unfold INT_MIN at h0
  unfold INT_MAX at h1
  unfold wrap_int
  omega

theorem wrap_int_range (v : Int) : INT_MIN ≤ wrap_int v ∧ wrap_int v ≤ INT_MAX := by
  unfold INT_MIN INT_MAX wrap_int
  omega

theorem wrap_int_add_wrap (a b : Int) : wrap_int (wrap_int a + b) = wrap_int (a + b) := by
  unfold wrap_int
  omega

theorem int_add_of_range (a b : Int) (h0 : INT_MIN ≤ a + b) (h1 : a + b ≤ INT_MAX) :
    int_add a b = a + b :=
  wrap_int_of_range _ h0 h1

theorem int_sub_of_range (a b : Int) (h0 : INT_MIN ≤ a - b) (h1 : a - b ≤ INT_MAX) :
    int_sub a b = a - b :=
  wrap_int_of_range _ h0 h1

theorem roll_once (sides : Int) (h : 2 ≤ sides) (hmax : sides ≤ INT_MAX) (mt : MTRand) :
    rnd.roll 1 sides mt
      = (mt.out mt.calls (sides - 1) + 1, { mt with calls := mt.calls + 1 }) := by
  have h1 : ¬ sides ≤ 0 := by omega
  have h2 : ¬ sides = 1 := by omega
  have hmin : INT_MIN = -2147483648 := rfl
  have hsub : int_sub sides 1 = sides - 1 := int_sub_of_range _ _ (by omega) (by omega)
  obtain ⟨c0, c1⟩ := mt.contract mt.calls (sides - 1) (by omega)
  have ha : int_add (mt.out mt.calls (sides - 1)) 1 = mt.out mt.calls (sides - 1) + 1 :=
    int_add_of_range _ _ (by omega) (by omega)
  have hb : int_add 0 (mt.out mt.calls (sides - 1) + 1) = mt.out mt.calls (sides - 1) + 1 := by
    rw [int_add_of_range _ _ (by omega) (by omega)]
    omega
  simp only [rnd.roll, h1, h2, if_false, Int.toNat_one, rnd.roll_loop, MTRand.randInt, hsub,
    ha, hb]

theorem roll_one_one (mt : MTRand) : rnd.roll 1 1 mt = (1, mt) := by
  simp [rnd.roll, int_mul, wrap_int]

theorem returning_out (mt : MTRand) (n g : Int) (h0 : 0 ≤ g) (h1 : g ≤ n) :
    (mt.returning n g).out (mt.returning n g).calls n = g := by
  simp [MTRand.returning, h0, h1]

theorem returning_calls (mt : MTRand) (n g : Int) : (mt.returning n g).calls = mt.calls := rfl

theorem fraction_draw (numer denom : Int) (h0 : 0 < numer) (h1 : numer < denom)
    (hmax : denom ≤ INT_MAX) (mt : MTRand) :
    rnd.fraction numer denom mt
      = (decide (mt.out mt.calls (denom - 1) < numer), { mt with calls := mt.calls + 1 }) := by
  have a : ¬ (numer ≤ 0 ∨ denom ≤ 0) := by omega
  have b : ¬ (numer ≥ denom ∨ denom = 1) := by omega
  have c : (mt.out mt.calls (denom - 1) + 1 ≤ numer) = (mt.out mt.calls (denom - 1) < numer) := by
    apply propext
    omega
  simp only [rnd.fraction, a, b, if_false, roll_once denom (by omega) hmax mt, c]

theorem fraction_certain (denom : Int) (hd : 1 ≤ denom) (mt : MTRand) :
    rnd.fraction denom denom mt = (true, mt) := by
  have a : ¬ (denom ≤ 0 ∨ denom ≤ 0) := by omega
  have b : denom ≥ denom ∨ denom = 1 := Or.inl (le_refl _)
  simp only [rnd.fraction, a, b, if_false, if_true]

/-- C5: `fraction(numer, denom)` is a Bernoulli trial with probability `numer/denom`.
For an `int` `denom >= 1` and `0 <= numer <= denom`: when `0 < numer < denom` the function
makes exactly one draw, `randInt(denom - 1)`, and answers true exactly when the value
drawn, which lies in `0..denom-1`, is below `numer`; so of the `denom` values `0..denom-1`
that this draw can return, exactly `numer` make `fraction` answer true.  For `numer = denom` it answers true and for
`numer = 0` false, in both cases without touching the generator. -/
theorem fraction_bernoulli (numer denom : Int) (hd : 1 ≤ denom) (hmax : denom ≤ INT_MAX)
    (h0 : 0 ≤ numer) (hn : numer ≤ denom) (mt : MTRand) :
    ((Finset.range denom.toNat).filter
        (fun g : Nat =>
          (rnd.fraction numer denom (mt.returning (denom - 1) (g : Int))).1 = true)).card
        = numer.toNat ∧
      (numer = denom → rnd.fraction numer denom mt = (true, mt)) ∧
      (numer = 0 → rnd.fraction numer denom mt = (false, mt)) ∧
      (0 < numer → numer < denom →
        rnd.fraction numer denom mt
          = (decide (mt.out mt.calls (denom - 1) < numer),
              { mt with calls := mt.calls + 1 })) ∧
      (0 ≤ mt.out mt.calls (denom - 1) ∧ mt.out mt.calls (denom - 1) ≤ denom - 1) := by
  refine ⟨?_, ?_, ?_, ?_, mt.contract mt.calls (denom - 1) (by omega)⟩
  · rcases eq_or_lt_of_le h0 with hz | hpos
    · subst hz
      simp [rnd.fraction]
    · rcases eq_or_lt_of_le hn with he | hlt
      · subst he
        simp [fraction_certain numer hd]
      · have key : (Finset.range denom.toNat).filter
            (fun g : Nat =>
              (rnd.fraction numer denom (mt.returning (denom - 1) (g : Int))).1 = true)
            = Finset.range numer.toNat := by
          ext g
          simp only [Finset.mem_filter, Finset.mem_range, fraction_draw numer denom hpos hlt hmax,
            decide_eq_true_eq]
          constructor
          · rintro ⟨hg, hres⟩
            rw [returning_out mt (denom - 1) g (by omega) (by omega)] at hres
            omega
          · intro hg
            refine ⟨by omega, ?_⟩
            rw [returning_out mt (denom - 1) g (by omega) (by omega)]
            omega
        rw [key, Finset.card_range]
  · intro he
    subst he
    exact fraction_certain numer hd mt
  · intro hz
    subst hz
    simp [rnd.fraction]
  · intro hpos hlt
    exact fraction_draw numer denom hpos hlt hmax mt

theorem fraction_bernoulli_witness :
    ((Finset.range (5 : Int).toNat).filter
        (fun g : Nat =>
          (rnd.fraction 2 5 (MTRand.lowest.returning (5 - 1) (g : Int))).1 = true)).card
      = (2 : Int).toNat :=
  (fraction_bernoulli 2 5 (by decide) (by decide) (by decide) (by decide) MTRand.lowest).1

theorem range_is_int (v1 v2 : Int) (mt : MTRand) :
    INT_MIN ≤ (rnd.range v1 v2 mt).1 ∧ (rnd.range v1 v2 mt).1 ≤ INT_MAX :=
  wrap_int_range _

theorem range_same (v : Int) (h0 : INT_MIN ≤ v) (h1 : v ≤ INT_MAX) (mt : MTRand) :
    rnd.range v v mt = (v, mt) := by
  unfold INT_MIN at h0
  unfold INT_MAX at h1
  have a : int_add (int_sub (std_max v v) (std_min v v)) 1 = 1 := by
    rw [std_max_eq, std_min_eq, max_self, min_self]
    unfold int_add int_sub wrap_int
    omega
  have b : int_sub (int_add (std_min v v) 1) 1 = v := by
    rw [std_min_eq, min_self]
    unfold int_add int_sub wrap_int
    omega
  simp only [rnd.range]
  rw [a, roll_one_one, b]

theorem range_draw (v1 v2 : Int) (h : v1 ≠ v2) (h1 : INT_MIN ≤ v1 ∧ v1 ≤ INT_MAX)
    (h2 : INT_MIN ≤ v2 ∧ v2 ≤ INT_MAX) (hno : max v1 v2 - min v1 v2 + 1 ≤ INT_MAX)
    (mt : MTRand) :
    rnd.range v1 v2 mt
      = (min v1 v2 + mt.out mt.calls (max v1 v2 - min v1 v2),
          { mt with calls := mt.calls + 1 }) := by
  have hmin : INT_MIN = -2147483648 := rfl
  have hmax : INT_MAX = 2147483647 := rfl
  have hlt : min v1 v2 < max v1 v2 := by
    rcases lt_or_gt_of_ne h with c | c
    · rw [min_eq_left c.le, max_eq_right c.le]; exact c
    · rw [min_eq_right c.le, max_eq_left c.le]; exact c
  have hmn : INT_MIN ≤ min v1 v2 := le_min h1.1 h2.1
  have a : int_add (int_sub (std_max v1 v2) (std_min v1 v2)) 1
      = max v1 v2 - min v1 v2 + 1 := by
    rw [std_max_eq, std_min_eq, int_sub_of_range _ _ (by omega) (by omega),
      int_add_of_range _ _ (by omega) (by omega)]
  have e : max v1 v2 - min v1 v2 + 1 - 1 = max v1 v2 - min v1 v2 := by omega
  obtain ⟨c0, c1⟩ := mt.contract mt.calls (max v1 v2 - min v1 v2) (by omega)
  have b : int_sub (int_add (min v1 v2) (mt.out mt.calls (max v1 v2 - min v1 v2) + 1)) 1
      = min v1 v2 + mt.out mt.calls (max v1 v2 - min v1 v2) := by
    have hmx : max v1 v2 ≤ INT_MAX := max_le h1.2 h2.2
    unfold int_add int_sub wrap_int
    omega
  simp only [rnd.range]
  rw [a, roll_once _ (by omega) hno mt, e, std_min_eq, b]

/-- C8: `range(v1, v2)` samples the interval `[min(v1,v2), max(v1,v2)]`.  For `int`s `v1`,
`v2` with `max - min + 1` not overflowing, and every generator: the result lies in the
interval; for `v1 != v2` the function makes exactly one draw, `randInt(max - min)`, and
returns `min` plus the value drawn, so each integer of the interval is the result for
exactly one of the values `0..max-min` this draw can return; swapping the two arguments
does not change the outcome; and for `v1 = v2` the result is `v1` with the generator left
untouched. -/
theorem range_spec (v1 v2 : Int) (h1 : INT_MIN ≤ v1 ∧ v1 ≤ INT_MAX)
    (h2 : INT_MIN ≤ v2 ∧ v2 ≤ INT_MAX) (hno : max v1 v2 - min v1 v2 + 1 ≤ INT_MAX)
    (mt : MTRand) :
    (min v1 v2 ≤ (rnd.range v1 v2 mt).1 ∧ (rnd.range v1 v2 mt).1 ≤ max v1 v2) ∧
      (v1 ≠ v2 →
        rnd.range v1 v2 mt
          = (min v1 v2 + mt.out mt.calls (max v1 v2 - min v1 v2),
              { mt with calls := mt.calls + 1 })) ∧
      (∀ k : Int, min v1 v2 ≤ k → k ≤ max v1 v2 →
        ∃! g : Int, (0 ≤ g ∧ g ≤ max v1 v2 - min v1 v2) ∧
          (rnd.range v1 v2 (mt.returning (max v1 v2 - min v1 v2) g)).1 = k) ∧
      rnd.range v2 v1 mt = rnd.range v1 v2 mt ∧
      (v1 = v2 → rnd.range v1 v2 mt = (v1, mt)) := by
  by_cases h : v1 = v2
  · subst h
    simp only [range_same v1 h1.1 h1.2, max_self, min_self, sub_self, true_and, implies_true,
      and_true, le_refl, and_self, ne_eq, not_true_eq_false, false_implies]
    intro k hk1 hk2
    refine ⟨0, ⟨⟨le_refl _, le_refl _⟩, le_antisymm hk1 hk2⟩, ?_⟩
    rintro g ⟨⟨hg0, hg1⟩, -⟩
    exact le_antisymm hg1 hg0
  · have h' : v2 ≠ v1 := fun e => h e.symm
    have hno' : max v2 v1 - min v2 v1 + 1 ≤ INT_MAX := by
      rw [max_comm, min_comm]; exact hno
    refine ⟨?_, fun _ => range_draw v1 v2 h h1 h2 hno mt, ?_, ?_, fun e => absurd e h⟩
    · rw [range_draw v1 v2 h h1 h2 hno mt]
      obtain ⟨c0, c1⟩ := mt.contract mt.calls (max v1 v2 - min v1 v2)
        (by have := min_le_max (a := v1) (b := v2); omega)
      constructor <;> simp only <;> omega
    · intro k hk1 hk2
      refine ⟨k - min v1 v2, ⟨⟨by omega, by omega⟩, ?_⟩, ?_⟩
      · rw [range_draw v1 v2 h h1 h2 hno, returning_out _ _ _ (by omega) (by omega)]
        simp only
        omega
      · rintro g ⟨⟨hg0, hg1⟩, hg⟩
        rw [range_draw v1 v2 h h1 h2 hno, returning_out _ _ _ hg0 hg1] at hg
        simp only at hg
        omega
    · rw [range_draw v1 v2 h h1 h2 hno mt, range_draw v2 v1 h' h2 h1 hno' mt, min_comm,
        max_comm]

theorem range_spec_witness :
    min (2 : Int) 5 ≤ (rnd.range 2 5 MTRand.highest).1 ∧
      (rnd.range 2 5 MTRand.highest).1 ≤ max (2 : Int) 5 :=
  (range_spec 2 5 (by decide) (by decide) (by decide) MTRand.highest).1

/-! ## Weighted choice -/

theorem accumulate_wrap (weights : List Int) (a : Int) :
    rnd.accumulate weights (wrap_int a) = wrap_int (a + weights.sum) := by
  induction weights generalizing a with
  | nil => simp [rnd.accumulate]
  | cons w ws ih =>
    have step : rnd.accumulate (w :: ws) (wrap_int a)
        = rnd.accumulate ws (wrap_int (a + w)) := by
      simp only [rnd.accumulate, List.foldl_cons, int_add, wrap_int_add_wrap]
    rw [step, ih, List.sum_cons]
    congr 1
    omega

theorem accumulate_zero (weights : List Int) :
    rnd.accumulate weights 0 = wrap_int weights.sum := by
  have h := accumulate_wrap weights 0
  have z : wrap_int 0 = 0 := rfl
  rw [z] at h
  rw [h]
  congr 1
  omega

theorem sum_pos_of_pos (weights : List Int) (hne : weights ≠ [])
    (hpos : ∀ w ∈ weights, 0 < w) : 0 < weights.sum := by
  induction weights with
  | nil => exact absurd rfl hne
  | cons w ws ih =>
    rw [List.sum_cons]
    have hw : 0 < w := hpos w (List.mem_cons_self _ _)
    by_cases hws : ws = []
    · subst hws
      simpa using hw
    · have := ih hws (fun v hv => hpos v (List.mem_cons_of_mem _ hv))
      omega

theorem take_sum_mono (weights : List Int) (hpos : ∀ w ∈ weights, 0 < w) (a b : Nat)
    (hab : a ≤ b) : (weights.take a).sum ≤ (weights.take b).sum := by
  induction weights generalizing a b with
  | nil => simp
  | cons w ws ih =>
    have hw : 0 < w := hpos w (List.mem_cons_self _ _)
    have hws : ∀ v ∈ ws, 0 < v := fun v hv => hpos v (List.mem_cons_of_mem _ hv)
    cases a with
    | zero =>
      cases b with
      | zero => simp
      | succ b =>
        have := ih hws 0 b (Nat.zero_le _)
        simp only [List.take_zero, List.sum_nil, List.take_succ_cons, List.sum_cons] at this ⊢
        omega
    | succ a =>
      cases b with
      | zero => omega
      | succ b =>
        have := ih hws a b (by omega)
        simp only [List.take_succ_cons, List.sum_cons]
        omega

theorem take_sum_succ (weights : List Int) (j : Nat) (hj : j < weights.length) :
    (weights.take (j + 1)).sum = (weights.take j).sum + weights[j] := by
  induction weights generalizing j with
  | nil => simp at hj
  | cons w ws ih =>
    cases j with
    | zero => simp
    | succ j =>
      have hj' : j < ws.length := by simpa using hj
      have := ih j hj'
      simp only [List.take_succ_cons, List.sum_cons, List.getElem_cons_succ] at this ⊢
      omega

theorem take_sum_le_sum (weights : List Int) (hpos : ∀ w ∈ weights, 0 < w) (a : Nat) :
    (weights.take a).sum ≤ weights.sum := by
  have := take_sum_mono weights hpos a (max a weights.length) (le_max_left _ _)
  rwa [List.take_of_length_le (le_max_right _ _)] at this

theorem length_le_sum (weights : List Int) (hpos : ∀ w ∈ weights, 0 < w) :
    (weights.length : Int) ≤ weights.sum := by
  induction weights with
  | nil => simp
  | cons w ws ih =>
    have hw : 0 < w := hpos w (List.mem_cons_self _ _)
    have := ih (fun v hv => hpos v (List.mem_cons_of_mem _ hv))
    simp only [List.length_cons, List.sum_cons]
    push_cast
    omega

theorem weighted_choice_loop_spec (weights : List Int) (hpos : ∀ w ∈ weights, 0 < w)
    (r : Int) (i0 : Nat) (hmax : r ≤ INT_MAX) (h1 : r < weights.sum)
    (hr : 0 ≤ r ∨ weights ≠ []) :
    ∃ k : Nat, rnd.weighted_choice_loop weights r i0 = some (i0 + k) ∧ k < weights.length ∧
      (0 ≤ r → (weights.take k).sum ≤ r) ∧ r < (weights.take (k + 1)).sum := by
  induction weights generalizing r i0 with
  | nil =>
    rcases hr with h | h
    · simp at h1
      omega
    · exact absurd rfl h
  | cons w ws ih =>
    have hw : 0 < w := hpos w (List.mem_cons_self _ _)
    have hws : ∀ v ∈ ws, 0 < v := fun v hv => hpos v (List.mem_cons_of_mem _ hv)
    rw [List.sum_cons] at h1
    by_cases hlt : r < w
    · refine ⟨0, ?_, by simp, by simp, by simpa using hlt⟩
      simp [rnd.weighted_choice_loop, hlt]
    · have hmin : INT_MIN = -2147483648 := rfl
      have hsub : int_sub r w = r - w := int_sub_of_range _ _ (by omega) (by omega)
      obtain ⟨k, hk, hlen, hlo, hhi⟩ :=
        ih hws (r - w) (i0 + 1) (by omega) (by omega) (Or.inl (by omega))
      refine ⟨k + 1, ?_, by simpa using hlen, ?_, ?_⟩
      · simp only [rnd.weighted_choice_loop, hlt, if_false, hsub, hk]
        congr 1
        omega
      · intro _
        have := hlo (by omega)
        simp only [List.take_succ_cons, List.sum_cons]
        omega
      · simp only [List.take_succ_cons, List.sum_cons] at hhi ⊢
        omega

theorem range_zero_upto (s : Int) (hs : 1 ≤ s) (hmax : s ≤ INT_MAX) (mt : MTRand) :
    (rnd.range 0 (s - 1) mt).1 = mt.out mt.calls (s - 1) := by
  have hmin : INT_MIN = -2147483648 := rfl
  have hmx : INT_MAX = 2147483647 := rfl
  by_cases h : (0 : Int) = s - 1
  · rw [← h, range_same 0 (by omega) (by omega)]
    obtain ⟨c0, c1⟩ := mt.contract mt.calls 0 (le_refl _)
    simp only
    omega
  · have e1 : max 0 (s - 1) = s - 1 := max_eq_right (by omega)
    have e2 : min 0 (s - 1) = 0 := min_eq_left (by omega)
    rw [range_draw 0 (s - 1) h ⟨by omega, by omega⟩ ⟨by omega, by omega⟩
      (by rw [e1, e2]; omega) mt, e1, e2]
    simp only [zero_add, sub_zero]

theorem weighted_choice_draw_lt_sum (weights : List Int) (hne : weights ≠ [])
    (hpos : ∀ w ∈ weights, 0 < w) (mt : MTRand) :
    (rnd.range 0 (int_sub (rnd.accumulate weights 0) 1) mt).1 < weights.sum := by
  have hS := sum_pos_of_pos weights hne hpos
  have hmin : INT_MIN = -2147483648 := rfl
  have hmx : INT_MAX = 2147483647 := rfl
  by_cases hbig : weights.sum ≤ INT_MAX
  · have hacc : rnd.accumulate weights 0 = weights.sum := by
      rw [accumulate_zero, wrap_int_of_range _ (by omega) hbig]
    have hsub : int_sub weights.sum 1 = weights.sum - 1 :=
      int_sub_of_range _ _ (by omega) (by omega)
    rw [hacc, hsub, range_zero_upto _ (by omega) hbig]
    have := (mt.contract mt.calls (weights.sum - 1) (by omega)).2
    omega
  · have := (range_is_int 0 (int_sub (rnd.accumulate weights 0) 1) mt).2
    omega

theorem weighted_choice_search_returns (weights : List Int) (hne : weights ≠ [])
    (hpos : ∀ w ∈ weights, 0 < w) (mt : MTRand) :
    ∃ k : Nat, (rnd.weighted_choice_search weights mt).1 = some k ∧ k < weights.length ∧
      (0 ≤ (rnd.range 0 (int_sub (rnd.accumulate weights 0) 1) mt).1 →
        (weights.take k).sum ≤ (rnd.range 0 (int_sub (rnd.accumulate weights 0) 1) mt).1) ∧
      (rnd.range 0 (int_sub (rnd.accumulate weights 0) 1) mt).1
        < (weights.take (k + 1)).sum := by
  obtain ⟨k, hk, hlen, hlo, hhi⟩ := weighted_choice_loop_spec weights hpos
    (rnd.range 0 (int_sub (rnd.accumulate weights 0) 1) mt).1 0
    (range_is_int _ _ mt).2 (weighted_choice_draw_lt_sum weights hne hpos mt) (Or.inr hne)
  refine ⟨k, ?_, hlen, hlo, hhi⟩
  simp only [rnd.weighted_choice_search, hk]
  congr 1
  omega

theorem weighted_choice_of_search (weights : List Int) (mt : MTRand) (k : Nat)
    (h : (rnd.weighted_choice_search weights mt).1 = some k) :
    (rnd.weighted_choice weights mt).1 = wrap_int (k : Int) := by
  unfold rnd.weighted_choice
  split
  · rename_i i mt' heq
    rw [heq] at h
    simp only [Option.some.injEq] at h
    simp [h]
  · rename_i mt' heq
    rw [heq] at h
    simp at h

theorem weighted_choice_draw (weights : List Int) (hne : weights ≠ [])
    (hpos : ∀ w ∈ weights, 0 < w) (hsum : weights.sum ≤ INT_MAX) (mt : MTRand) :
    rnd.accumulate weights 0 = weights.sum ∧
      (rnd.range 0 (int_sub (rnd.accumulate weights 0) 1) mt).1
        = mt.out mt.calls (weights.sum - 1) ∧
      0 ≤ mt.out mt.calls (weights.sum - 1) ∧
      mt.out mt.calls (weights.sum - 1) ≤ weights.sum - 1 := by
  have hS := sum_pos_of_pos weights hne hpos
  have hmin : INT_MIN = -2147483648 := rfl
  have hmx : INT_MAX = 2147483647 := rfl
  have hacc : rnd.accumulate weights 0 = weights.sum := by
    rw [accumulate_zero, wrap_int_of_range _ (by omega) hsum]
  have hsub : int_sub weights.sum 1 = weights.sum - 1 :=
    int_sub_of_range _ _ (by omega) (by omega)
  obtain ⟨c0, c1⟩ := mt.contract mt.calls (weights.sum - 1) (by omega)
  refine ⟨hacc, ?_, c0, c1⟩
  rw [hacc, hsub, range_zero_upto _ (by omega) hsum]

theorem weighted_choice_index (weights : List Int) (hne : weights ≠ [])
    (hpos : ∀ w ∈ weights, 0 < w) (hsum : weights.sum ≤ INT_MAX) (mt : MTRand) :
    ∃ k : Nat, (rnd.weighted_choice weights mt).1 = (k : Int) ∧ k < weights.length ∧
      (weights.take k).sum ≤ mt.out mt.calls (weights.sum - 1) ∧
      mt.out mt.calls (weights.sum - 1) < (weights.take (k + 1)).sum := by
  obtain ⟨-, hr, c0, c1⟩ := weighted_choice_draw weights hne hpos hsum mt
  obtain ⟨k, hk, hlen, hlo, hhi⟩ := weighted_choice_search_returns weights hne hpos mt
  rw [hr] at hlo hhi
  have hlo' := hlo c0
  have hmin : INT_MIN = -2147483648 := rfl
  have hkle : (k : Int) ≤ (weights.take k).sum := by
    have := length_le_sum (weights.take k) (fun w hw => hpos w (List.mem_of_mem_take hw))
    rw [List.length_take, min_eq_left hlen.le] at this
    exact this
  refine ⟨k, ?_, hlen, hlo', hhi⟩
  rw [weighted_choice_of_search weights mt k hk, wrap_int_of_range _ (by omega) (by omega)]

theorem weighted_choice_eq_iff (weights : List Int) (hne : weights ≠ [])
    (hpos : ∀ w ∈ weights, 0 < w) (hsum : weights.sum ≤ INT_MAX) (mt : MTRand) (j : Nat) :
    (rnd.weighted_choice weights mt).1 = (j : Int) ↔
      (weights.take j).sum ≤ mt.out mt.calls (weights.sum - 1) ∧
        mt.out mt.calls (weights.sum - 1) < (weights.take (j + 1)).sum := by
  obtain ⟨k, hk, -, hlo, hhi⟩ := weighted_choice_index weights hne hpos hsum mt
  rw [hk]
  constructor
  · intro h
    have hkj : k = j := by exact_mod_cast h
    subst hkj
    exact ⟨hlo, hhi⟩
  · rintro ⟨a, b⟩
    rcases lt_trichotomy k j with hlt | heq | hgt
    · have := take_sum_mono weights hpos (k + 1) j hlt
      omega
    · rw [heq]
    · have := take_sum_mono weights hpos (j + 1) k hgt
      omega

/-- C6, as stated, fails for weights whose sum does not fit in an `int`: for the weights
`2147483647, 1` (sum `S = 2^31`) the `int` sum wraps to `INT_MIN`, the value `range` hands
back is `-1`, outside `0..S-1`, and the index returned is 0 for every generator, so the
index 1 of weight 1 is returned for none of the draws. -/
theorem weighted_choice_sum_overflow :
    (∀ w ∈ ([2147483647, 1] : List Int), 0 < w) ∧
      ([2147483647, 1] : List Int).sum = 2147483648 ∧
      ∀ mt : MTRand,
        (rnd.range 0 (int_sub (rnd.accumulate [2147483647, 1] 0) 1) mt).1 = -1 ∧
        (rnd.weighted_choice [2147483647, 1] mt).1 = 0 := by
  refine ⟨by decide, by decide, ?_⟩
  intro mt
  exact ⟨rfl, rfl⟩

/-- C6 (amended): `weighted_choice` selects index `i` with probability `weights[i] / S`
for a non-empty list of positive weights whose sum `S` is at most `INT_MAX`.  The `int` sum
is `S`; the value `r` that `range(0, S - 1)` hands back is the value of the draw
`randInt(S - 1)`, in `0..S-1`; the returned index `i` is a valid index with
`w[0] + ... + w[i-1] <= r < w[0] + ... + w[i]`; hence for each index `j` exactly
`weights[j]` of the `S` values `0..S-1` this draw can return give `j`. -/
theorem weighted_choice_spec (weights : List Int) (hne : weights ≠ [])
    (hpos : ∀ w ∈ weights, 0 < w) (hsum : weights.sum ≤ INT_MAX) (mt : MTRand) :
    rnd.accumulate weights 0 = weights.sum ∧
      (rnd.range 0 (int_sub (rnd.accumulate weights 0) 1) mt).1
        = mt.out mt.calls (weights.sum - 1) ∧
      (0 ≤ (rnd.range 0 (int_sub (rnd.accumulate weights 0) 1) mt).1 ∧
        (rnd.range 0 (int_sub (rnd.accumulate weights 0) 1) mt).1 ≤ weights.sum - 1) ∧
      (∃ i : Nat, (rnd.weighted_choice weights mt).1 = (i : Int) ∧ i < weights.length ∧
        (weights.take i).sum ≤ (rnd.range 0 (int_sub (rnd.accumulate weights 0) 1) mt).1 ∧
        (rnd.range 0 (int_sub (rnd.accumulate weights 0) 1) mt).1
          < (weights.take (i + 1)).sum) ∧
      ∀ (j : Nat) (hj : j < weights.length),
        ((Finset.range weights.sum.toNat).filter
          (fun g : Nat =>
            (rnd.weighted_choice weights (mt.returning (weights.sum - 1) (g : Int))).1
              = (j : Int))).card
          = (weights[j]).toNat := by
  obtain ⟨hacc, hr, c0, c1⟩ := weighted_choice_draw weights hne hpos hsum mt
  have hS := sum_pos_of_pos weights hne hpos
  refine ⟨hacc, hr, by rw [hr]; exact ⟨c0, c1⟩, ?_, ?_⟩
  · obtain ⟨k, hk, hlen, hlo, hhi⟩ := weighted_choice_index weights hne hpos hsum mt
    exact ⟨k, hk, hlen, by rw [hr]; exact hlo, by rw [hr]; exact hhi⟩
  · intro j hj
    have hlo : 0 ≤ (weights.take j).sum := by
      have := take_sum_mono weights hpos 0 j (Nat.zero_le _)
      simpa using this
    have hstep := take_sum_succ weights j hj
    have hwj : 0 < weights[j] := hpos _ (List.getElem_mem hj)
    have htop := take_sum_le_sum weights hpos (j + 1)
    have key : (Finset.range weights.sum.toNat).filter
        (fun g : Nat =>
          (rnd.weighted_choice weights (mt.returning (weights.sum - 1) (g : Int))).1
            = (j : Int))
        = Finset.Ico (weights.take j).sum.toNat (weights.take (j + 1)).sum.toNat := by
      ext g
      simp only [Finset.mem_filter, Finset.mem_range, Finset.mem_Ico,
        weighted_choice_eq_iff weights hne hpos hsum]
      constructor
      · rintro ⟨hg, hres⟩
        rw [returning_out mt (weights.sum - 1) g (by omega) (by omega)] at hres
        omega
      · rintro ⟨ha, hb⟩
        have hg : g < weights.sum.toNat := by omega
        refine ⟨hg, ?_⟩
        rw [returning_out mt (weights.sum - 1) g (by omega) (by omega)]
        omega
    rw [key, Nat.card_Ico]
    omega

theorem weighted_choice_spec_witness :
    ((Finset.range ([1, 2, 3] : List Int).sum.toNat).filter
        (fun g : Nat =>
          (rnd.weighted_choice [1, 2, 3]
            (MTRand.highest.returning (([1, 2, 3] : List Int).sum - 1) (g : Int))).1
            = ((1 : Nat) : Int))).card
      = (([1, 2, 3] : List Int)[1]).toNat :=
  (weighted_choice_spec [1, 2, 3] (by decide) (by decide) (by decide)
    MTRand.highest).2.2.2.2 1 (by decide)

/-- C7, as stated, fails: the empty list satisfies the checked precondition (every weight
is positive) and for every generator the loop of `weighted_choice` ends without returning,
so control reaches the trailing `ASSERT(false)`. -/
theorem weighted_choice_empty_reaches_end :
    (∀ w ∈ ([] : List Int), 0 < w) ∧
      ∀ mt : MTRand, (rnd.weighted_choice_search [] mt).1 = none := by
  refine ⟨by simp, fun mt => rfl⟩

/-- C7 (amended): for every non-empty list of positive weights and every generator, that
is every value the draw can take, `weighted_choice` returns from inside its loop, with a
valid index; the trailing `ASSERT(false)` is not reached. -/
theorem weighted_choice_returns_in_loop (weights : List Int) (hne : weights ≠ [])
    (hpos : ∀ w ∈ weights, 0 < w) (mt : MTRand) :
    ∃ i : Nat, (rnd.weighted_choice_search weights mt).1 = some i ∧ i < weights.length := by
  obtain ⟨k, hk, hlen, -, -⟩ := weighted_choice_search_returns weights hne hpos mt
  exact ⟨k, hk, hlen⟩

theorem weighted_choice_returns_in_loop_witness :
    ∃ i : Nat, (rnd.weighted_choice_search [2, 1] MTRand.highest).1 = some i ∧
      i < ([2, 1] : List Int).length :=
  weighted_choice_returns_in_loop [2, 1] (by decide) (by decide) MTRand.highest

/-! ## Clamping -/

/-- C9: the integer clamping helpers.  For `min <= max`, `constr_in_range(min, val, max)`
lies in `[min, max]`, equals `val` when `val` is already inside, `min` when `val < min` and
`max` when `val > max`, and `set_constr_in_range` leaves `val` equal to the same number;
for `max < min`, `constr_in_range` returns `-1` and `set_constr_in_range` leaves `val` as
it was. -/
theorem constr_in_range_spec (min val max : Int) :
    (min ≤ max →
        (min ≤ constr_in_range min val max ∧ constr_in_range min val max ≤ max) ∧
        (min ≤ val → val ≤ max → constr_in_range min val max = val) ∧
        (val < min → constr_in_range min val max = min) ∧
        (val > max → constr_in_range min val max = max) ∧
        set_constr_in_range min val max = constr_in_range min val max) ∧
      (max < min →
        constr_in_range min val max = -1 ∧ set_constr_in_range min val max = val) := by
  unfold constr_in_range set_constr_in_range std_min std_max
  constructor
  · intro h
    have a : ¬ max < min := by omega
    have b : max ≥ min := by omega
    simp only [a, b, if_false, if_true]
    refine ⟨⟨?_, ?_⟩, ?_, ?_, ?_, trivial⟩
    · split <;> split <;> omega
    · split <;> split <;> omega
    · intro _ _
      split <;> split <;> omega
    · intro _
      split <;> split <;> omega
    · intro _
      split <;> split <;> omega
  · intro h
    have b : ¬ max ≥ min := by omega
    simp only [h, b, if_false, if_true, and_self]

/-! ## Nearest-point search -/

theorem closest_pos_loop_spec (p : P) (positions : List P) (d : Int) (c : P) :
    ((∀ q ∈ positions, d ≤ king_dist p q) ∧ closest_pos_loop p positions d c = c) ∨
      ∃ (i : Nat) (hi : i < positions.length),
        closest_pos_loop p positions d c = positions[i] ∧
        king_dist p positions[i] < d ∧
        (∀ q ∈ positions, king_dist p positions[i] ≤ king_dist p q) ∧
        ∀ (j : Nat) (hj : j < positions.length), j < i →
          king_dist p positions[i] < king_dist p positions[j] := by
  induction positions generalizing d c with
  | nil => exact Or.inl ⟨by simp, rfl⟩
  | cons q rest ih =>
    by_cases hlt : king_dist p q < d
    · have step : closest_pos_loop p (q :: rest) d c
          = closest_pos_loop p rest (king_dist p q) q := by
        simp [closest_pos_loop, hlt]
      right
      rcases ih (king_dist p q) q with ⟨hall, hres⟩ | ⟨i, hi, hres, hd, hmin, hfirst⟩
      · refine ⟨0, by simp, ?_, by simpa using hlt, ?_, ?_⟩
        · rw [step, hres]
          rfl
        · intro q' hq'
          rcases List.mem_cons.mp hq' with e | hmem
          · rw [e]
            exact le_refl _
          · exact hall q' hmem
        · intro j _ hj
          omega
      · refine ⟨i + 1, by simpa using hi, ?_, ?_, ?_, ?_⟩
        · rw [step, hres]
          rfl
        · simp only [List.getElem_cons_succ]
          omega
        · intro q' hq'
          simp only [List.getElem_cons_succ]
          rcases List.mem_cons.mp hq' with e | hmem
          · rw [e]
            omega
          · exact hmin q' hmem
        · intro j hj hji
          simp only [List.getElem_cons_succ]
          cases j with
          | zero => simpa using hd
          | succ j =>
            simp only [List.getElem_cons_succ]
            exact hfirst j (by simpa using hj) (by omega)
    · have step : closest_pos_loop p (q :: rest) d c = closest_pos_loop p rest d c := by
        simp [closest_pos_loop, hlt]
      rcases ih d c with ⟨hall, hres⟩ | ⟨i, hi, hres, hd, hmin, hfirst⟩
      · left
        refine ⟨?_, by rw [step, hres]⟩
        intro q' hq'
        rcases List.mem_cons.mp hq' with e | hmem
        · rw [e]
          omega
        · exact hall q' hmem
      · right
        refine ⟨i + 1, by simpa using hi, ?_, ?_, ?_, ?_⟩
        · rw [step, hres]
          rfl
        · simpa using hd
        · intro q' hq'
          simp only [List.getElem_cons_succ]
          rcases List.mem_cons.mp hq' with e | hmem
          · rw [e]
            omega
          · exact hmin q' hmem
        · intro j hj hji
          simp only [List.getElem_cons_succ]
          cases j with
          | zero =>
            simp only [List.getElem_cons_zero]
            omega
          | succ j =>
            simp only [List.getElem_cons_succ]
            exact hfirst j (by simpa using hj) (by omega)

/-- C10: nearest-point search.  For a non-empty list whose king distances to `p` are all
below `INT_MAX`, `closest_pos(p, positions)` is an element of the list, no element of the
list is nearer to `p` (in king distance), and every element before it is strictly farther:
it is the first element attaining the minimum. -/
theorem closest_pos_spec (p_default p : P) (positions : List P) (hne : positions ≠ [])
    (hd : ∀ q ∈ positions, king_dist p q < INT_MAX) :
    ∃ (i : Nat) (hi : i < positions.length),
      closest_pos p_default p positions = positions[i] ∧
      (∀ q ∈ positions, king_dist p (closest_pos p_default p positions) ≤ king_dist p q) ∧
      ∀ (j : Nat) (hj : j < positions.length), j < i →
        king_dist p (closest_pos p_default p positions) < king_dist p positions[j] := by
  rcases closest_pos_loop_spec p positions INT_MAX p_default with
    ⟨hall, -⟩ | ⟨i, hi, hres, -, hmin, hfirst⟩
  · exfalso
    cases positions with
    | nil => exact hne rfl
    | cons q rest =>
      have h1 := hall q (List.mem_cons_self _ _)
      have h2 := hd q (List.mem_cons_self _ _)
      omega
  · refine ⟨i, hi, hres, ?_, ?_⟩
    · intro q hq
      unfold closest_pos
      rw [hres]
      exact hmin q hq
    · intro j hj hji
      unfold closest_pos
      rw [hres]
      exact hfirst j hj hji

theorem closest_pos_spec_witness :
    ∃ (i : Nat) (hi : i < ([⟨3, 3⟩, ⟨1, 2⟩, ⟨2, 0⟩] : List P).length),
      closest_pos ⟨0, 0⟩ ⟨0, 0⟩ [⟨3, 3⟩, ⟨1, 2⟩, ⟨2, 0⟩]
        = ([⟨3, 3⟩, ⟨1, 2⟩, ⟨2, 0⟩] : List P)[i] ∧
      (∀ q ∈ ([⟨3, 3⟩, ⟨1, 2⟩, ⟨2, 0⟩] : List P),
        king_dist ⟨0, 0⟩ (closest_pos ⟨0, 0⟩ ⟨0, 0⟩ [⟨3, 3⟩, ⟨1, 2⟩, ⟨2, 0⟩])
          ≤ king_dist ⟨0, 0⟩ q) ∧
      ∀ (j : Nat) (hj : j < ([⟨3, 3⟩, ⟨1, 2⟩, ⟨2, 0⟩] : List P).length), j < i →
        king_dist ⟨0, 0⟩ (closest_pos ⟨0, 0⟩ ⟨0, 0⟩ [⟨3, 3⟩, ⟨1, 2⟩, ⟨2, 0⟩])
          < king_dist ⟨0, 0⟩ ([⟨3, 3⟩, ⟨1, 2⟩, ⟨2, 0⟩] : List P)[j] :=
  closest_pos_spec ⟨0, 0⟩ ⟨0, 0⟩ [⟨3, 3⟩, ⟨1, 2⟩, ⟨2, 0⟩] (by decide) (by decide)

/-! ## Dice and percent rolls -/

theorem roll_loop_bounds (sides : Int) (hs : 2 ≤ sides) (n : Nat) (result : Int)
    (mt : MTRand) (h0 : 0 ≤ result) (hno : result + (n : Int) * sides ≤ INT_MAX) :
    result + (n : Int) ≤ (rnd.roll_loop sides n result mt).1 ∧
      (rnd.roll_loop sides n result mt).1 ≤ result + (n : Int) * sides := by
  induction n generalizing result mt with
  | zero => simp [rnd.roll_loop]
  | succ n ih =>
    have hmin : INT_MIN = -2147483648 := rfl
    have e : ((n + 1 : Nat) : Int) * sides = (n : Int) * sides + sides := by
      push_cast
      ring
    have hn : 0 ≤ (n : Int) * sides := mul_nonneg (Int.ofNat_nonneg n) (by omega)
    rw [e] at hno ⊢
    have hsub : int_sub sides 1 = sides - 1 := int_sub_of_range _ _ (by omega) (by omega)
    obtain ⟨c0, c1⟩ := mt.contract mt.calls (sides - 1) (by omega)
    have ha : int_add (mt.out mt.calls (sides - 1)) 1 = mt.out mt.calls (sides - 1) + 1 :=
      int_add_of_range _ _ (by omega) (by omega)
    have hb : int_add result (mt.out mt.calls (sides - 1) + 1)
        = result + (mt.out mt.calls (sides - 1) + 1) :=
      int_add_of_range _ _ (by omega) (by omega)
    have hstep : rnd.roll_loop sides (n + 1) result mt
        = rnd.roll_loop sides n (result + (mt.out mt.calls (sides - 1) + 1))
            { mt with calls := mt.calls + 1 } := by
      simp only [rnd.roll_loop, MTRand.randInt, hsub, ha, hb]
    have := ih (result + (mt.out mt.calls (sides - 1) + 1)) { mt with calls := mt.calls + 1 }
      (by omega) (by omega)
    rw [hstep]
    push_cast
    constructor <;> omega

theorem roll_loop_highest (sides : Int) (hs : 2 ≤ sides) (hmax : sides ≤ INT_MAX) (n : Nat)
    (a : Int) (mt : MTRand) (hout : ∀ (i : Nat) (m : Int), mt.out i m = m) :
    (rnd.roll_loop sides n (wrap_int a) mt).1 = wrap_int (a + (n : Int) * sides) := by
  induction n generalizing a mt with
  | zero => simp [rnd.roll_loop]
  | succ n ih =>
    have hmin : INT_MIN = -2147483648 := rfl
    have hsub : int_sub sides 1 = sides - 1 := int_sub_of_range _ _ (by omega) (by omega)
    have ha : int_add (sides - 1) 1 = sides := by
      rw [int_add_of_range _ _ (by omega) (by omega)]
      omega
    have hb : int_add (wrap_int a) sides = wrap_int (a + sides) := wrap_int_add_wrap a sides
    have hstep : rnd.roll_loop sides (n + 1) (wrap_int a) mt
        = rnd.roll_loop sides n (wrap_int (a + sides)) { mt with calls := mt.calls + 1 } := by
      simp only [rnd.roll_loop, MTRand.randInt, hsub, hout, ha, hb]
    rw [hstep, ih (a + sides) { mt with calls := mt.calls + 1 } hout]
    congr 1
    push_cast
    ring

/-- C11, as stated, fails when the total does not fit in an `int`: two rolls of a die with
`INT_MAX` sides, both at the highest value, give `-2`, and 50000 rolls of a die with 50000
sides, all at the highest value, give `-1794967296`; both are below `rolls`. -/
theorem dice_overflow :
    (rnd.dice 2 2147483647 MTRand.highest).1 = -2 ∧
      (rnd.dice 50000 50000 MTRand.highest).1 = -1794967296 := by
  constructor
  · rfl
  · have h := roll_loop_highest 50000 (by decide) (by decide) 50000 0 MTRand.highest
      (fun _ _ => rfl)
    have z : wrap_int 0 = 0 := rfl
    rw [z] at h
    have hroll : rnd.dice 50000 50000 MTRand.highest
        = rnd.roll_loop 50000 50000 0 MTRand.highest := by
      simp [rnd.dice, rnd.roll]
    rw [hroll, h]
    decide

/-- C11 (amended): dice rolls.  For `rolls >= 0` and `sides >= 1` with `rolls * sides` at
most `INT_MAX`, and every generator, `dice(rolls, sides)` lies between `rolls` and
`rolls * sides`; `Dice_param::roll()` returns the `int` sum of the dice result of its
`rolls` and `sides` and its `plus` field, which is their sum whenever that fits in an
`int`; and for `sides <= 0`, `dice` returns 0 (without using the generator). -/
theorem dice_spec (rolls sides : Int) (mt : MTRand) :
    (0 ≤ rolls → 1 ≤ sides → rolls * sides ≤ INT_MAX →
        rolls ≤ (rnd.dice rolls sides mt).1 ∧ (rnd.dice rolls sides mt).1 ≤ rolls * sides) ∧
      (∀ plus : Int,
        Dice_param.roll ⟨rolls, sides, plus⟩ mt
          = (int_add (rnd.dice rolls sides mt).1 plus, (rnd.dice rolls sides mt).2)) ∧
      (∀ plus : Int, INT_MIN ≤ (rnd.dice rolls sides mt).1 + plus →
        (rnd.dice rolls sides mt).1 + plus ≤ INT_MAX →
        (Dice_param.roll ⟨rolls, sides, plus⟩ mt).1 = (rnd.dice rolls sides mt).1 + plus) ∧
      (sides ≤ 0 → rnd.dice rolls sides mt = (0, mt)) := by
  refine ⟨?_, fun _ => rfl, fun plus h0 h1 => int_add_of_range _ _ h0 h1, ?_⟩
  · intro hr hs hno
    have hmin : INT_MIN = -2147483648 := rfl
    by_cases h1 : sides = 1
    · subst h1
      have e : int_mul rolls 1 = rolls := by
        unfold int_mul
        rw [mul_one] at hno ⊢
        exact wrap_int_of_range _ (by omega) hno
      simp [rnd.dice, rnd.roll, e]
    · have a : ¬ sides ≤ 0 := by omega
      have hcast : ((rolls.toNat : Nat) : Int) = rolls := Int.toNat_of_nonneg hr
      have hb := roll_loop_bounds sides (by omega) rolls.toNat 0 mt (le_refl _)
        (by rw [hcast]; omega)
      simp only [rnd.dice, rnd.roll, a, h1, if_false]
      rw [hcast] at hb
      constructor <;> omega
  · intro hs
    simp [rnd.dice, rnd.roll, hs]

theorem percent_chance_draw (pct_chance : Int) (mt : MTRand) :
    rnd.percent_chance pct_chance mt
      = (decide (mt.out mt.calls 99 < pct_chance), { mt with calls := mt.calls + 1 }) := by
  have c : (pct_chance ≥ mt.out mt.calls 99 + 1) = (mt.out mt.calls 99 < pct_chance) := by
    apply propext
    omega
  have e : (100 : Int) - 1 = 99 := by norm_num
  simp only [rnd.percent_chance, roll_once 100 (by omega) (by decide) mt, e, c]

/-- C12: the percent chance test.  `percent(pct_chance)` makes one draw, `randInt(99)`,
and answers true exactly when the value drawn is below `pct_chance`.  So for
`0 <= pct_chance <= 100`, exactly `pct_chance` of the 100 values `0..99` that this draw can
return make it answer true; for `pct_chance >= 100` the answer is true and for
`pct_chance <= 0` false, for every generator; and `percent()` returns the value of its
draw `randInt(99)` plus one, a value in `1..100`. -/
theorem percent_spec (pct_chance : Int) (mt : MTRand) :
    (0 ≤ pct_chance → pct_chance ≤ 100 →
        ((Finset.range 100).filter
          (fun g : Nat =>
            (rnd.percent_chance pct_chance (mt.returning 99 (g : Int))).1 = true)).card
          = pct_chance.toNat) ∧
      rnd.percent_chance pct_chance mt
        = (decide (mt.out mt.calls 99 < pct_chance), { mt with calls := mt.calls + 1 }) ∧
      (100 ≤ pct_chance → (rnd.percent_chance pct_chance mt).1 = true) ∧
      (pct_chance ≤ 0 → (rnd.percent_chance pct_chance mt).1 = false) ∧
      rnd.percent mt = (mt.out mt.calls 99 + 1, { mt with calls := mt.calls + 1 }) ∧
      (1 ≤ (rnd.percent mt).1 ∧ (rnd.percent mt).1 ≤ 100) := by
  obtain ⟨c0, c1⟩ := mt.contract mt.calls 99 (by omega)
  have e : (100 : Int) - 1 = 99 := by norm_num
  have hp : rnd.percent mt = (mt.out mt.calls 99 + 1, { mt with calls := mt.calls + 1 }) := by
    simp only [rnd.percent, roll_once 100 (by omega) (by decide) mt, e]
  refine ⟨?_, percent_chance_draw pct_chance mt, ?_, ?_, hp, ?_⟩
  · intro h0 h1
    have key : (Finset.range 100).filter
        (fun g : Nat =>
          (rnd.percent_chance pct_chance (mt.returning 99 (g : Int))).1 = true)
        = Finset.range pct_chance.toNat := by
      ext g
      simp only [Finset.mem_filter, Finset.mem_range, percent_chance_draw, decide_eq_true_eq]
      constructor
      · rintro ⟨hg, hres⟩
        rw [returning_out mt 99 g (by omega) (by omega)] at hres
        omega
      · intro hg
        refine ⟨by omega, ?_⟩
        rw [returning_out mt 99 g (by omega) (by omega)]
        omega
    rw [key, Finset.card_range]
  · intro h
    simp only [percent_chance_draw, decide_eq_true_eq]
    omega
  · intro h
    simp only [percent_chance_draw, decide_eq_false_iff_not]
    omega
  · rw [hp]
    constructor <;> simp only <;> omega

/-- C13: what `fraction` does outside its contract once the assertions are compiled out.
It returns false whenever `numer <= 0` or `denom <= 0`, and true whenever `numer >= 1`,
`denom >= 1` and `numer >= denom`; in both cases the generator is left untouched. -/
theorem fraction_out_of_contract (numer denom : Int) (mt : MTRand) :
    (numer ≤ 0 ∨ denom ≤ 0 → rnd.fraction numer denom mt = (false, mt)) ∧
      (1 ≤ numer → 1 ≤ denom → denom ≤ numer → rnd.fraction numer denom mt = (true, mt)) := by
  constructor
  · intro h
    simp only [rnd.fraction, h, if_true]
  · intro h1 h2 h3
    have a : ¬ (numer ≤ 0 ∨ denom ≤ 0) := by omega
    have b : numer ≥ denom ∨ denom = 1 := Or.inl h3
    simp only [rnd.fraction, a, b, if_false, if_true]

/-! ## Geometric predicates -/

/-- C17: `is_pos_adj(pos1, pos2, c)` is true exactly when the king distance of the two
positions is 1, or the positions coincide and `c` is true; so it is symmetric in the two
positions. -/
theorem is_pos_adj_spec (pos1 pos2 : P) (c : Bool) :
    (is_pos_adj pos1 pos2 c = true ↔
        king_dist pos1 pos2 = 1 ∨ (pos1 = pos2 ∧ c = true)) ∧
      is_pos_adj pos1 pos2 c = is_pos_adj pos2 pos1 c := by
  obtain ⟨x1, y1⟩ := pos1
  obtain ⟨x2, y2⟩ := pos2
  simp only [is_pos_adj, king_dist, std_max, std_abs, P.mk.injEq]
  constructor
  · cases c <;> split_ifs <;> simp <;> omega
  · cases c <;> split_ifs <;> first | rfl | omega

/-- C18: for a well-formed `inner` rectangle, `is_area_inside(inner, outer, true)` holds
exactly when every position inside `inner` is inside `outer`; and the strict variant
(`count_equal_as_inside = false`) implies the non-strict one. -/
theorem is_area_inside_spec (inner outer : R) (hx : inner.p0.x ≤ inner.p1.x)
    (hy : inner.p0.y ≤ inner.p1.y) :
    (is_area_inside inner outer true = true ↔
        ∀ pos : P, is_pos_inside pos inner = true → is_pos_inside pos outer = true) ∧
      (is_area_inside inner outer false = true → is_area_inside inner outer true = true) := by
  simp only [is_area_inside, is_pos_inside, if_true, Bool.and_eq_true, decide_eq_true_eq,
    Bool.false_eq_true, if_false, ge_iff_le, gt_iff_lt]
  refine ⟨⟨?_, ?_⟩, ?_⟩
  · rintro ⟨⟨⟨a, b⟩, c⟩, d⟩ pos ⟨⟨⟨e, f⟩, g⟩, h⟩
    exact ⟨⟨⟨by omega, by omega⟩, by omega⟩, by omega⟩
  · intro h
    obtain ⟨⟨⟨a, -⟩, c⟩, -⟩ := h inner.p0 ⟨⟨⟨le_refl _, hx⟩, le_refl _⟩, hy⟩
    obtain ⟨⟨⟨-, b⟩, -⟩, d⟩ := h inner.p1 ⟨⟨⟨hx, le_refl _⟩, hy⟩, le_refl _⟩
    exact ⟨⟨⟨a, b⟩, c⟩, d⟩
  · rintro ⟨⟨⟨a, b⟩, c⟩, d⟩
    exact ⟨⟨⟨by omega, by omega⟩, by omega⟩, by omega⟩

theorem is_area_inside_spec_witness :
    (is_area_inside ⟨⟨1, 1⟩, ⟨2, 3⟩⟩ ⟨⟨0, 1⟩, ⟨2, 4⟩⟩ true = true ↔
        ∀ pos : P, is_pos_inside pos ⟨⟨1, 1⟩, ⟨2, 3⟩⟩ = true →
          is_pos_inside pos ⟨⟨0, 1⟩, ⟨2, 4⟩⟩ = true) ∧
      (is_area_inside ⟨⟨1, 1⟩, ⟨2, 3⟩⟩ ⟨⟨0, 1⟩, ⟨2, 4⟩⟩ false = true →
        is_area_inside ⟨⟨1, 1⟩, ⟨2, 3⟩⟩ ⟨⟨0, 1⟩, ⟨2, 4⟩⟩ true = true) :=
  is_area_inside_spec ⟨⟨1, 1⟩, ⟨2, 3⟩⟩ ⟨⟨0, 1⟩, ⟨2, 4⟩⟩ (by decide) (by decide)

/-! ## Flat array to vector -/

theorem edge_values :
    dir_utils.edge ℝ 0 = 0.39269908125 ∧ dir_utils.edge ℝ 1 = 1.17809724375 ∧
      dir_utils.edge ℝ 2 = 1.96349540625 ∧ dir_utils.edge ℝ 3 = 2.74889356875 := by
  refine ⟨?_, ?_, ?_, ?_⟩ <;>
    norm_num [dir_utils.edge, dir_utils.angle_45_half_db, dir_utils.angle_45_db,
      dir_utils.pi_db]

theorem edge_order :
    0 < dir_utils.edge ℝ 0 ∧ dir_utils.edge ℝ 0 < Real.pi / 4 ∧
      Real.pi / 4 < dir_utils.edge ℝ 1 ∧ dir_utils.edge ℝ 1 < Real.pi / 2 ∧
      Real.pi / 2 < dir_utils.edge ℝ 2 ∧ dir_utils.edge ℝ 2 < 3 * Real.pi / 4 ∧
      3 * Real.pi / 4 < dir_utils.edge ℝ 3 ∧ dir_utils.edge ℝ 3 < Real.pi := by
  obtain ⟨e0, e1, e2, e3⟩ := edge_values
  have p1 := Real.pi_gt_d2
  have p2 := Real.pi_lt_d2
  rw [e0, e1, e2, e3]
  norm_num at p1 p2 ⊢
  refine ⟨?_, ?_, ?_, ?_, ?_, ?_, ?_⟩ <;> linarith

theorem of_angle_SW (a : ℝ) (h1 : -dir_utils.edge ℝ 3 < a) (h2 : a < -dir_utils.edge ℝ 2) :
    dir_utils.compass_dir_name_of_angle a = "SW" := by
  obtain ⟨o0, o1, o2, o3, o4, o5, o6, o7⟩ := edge_order
  unfold dir_utils.compass_dir_name_of_angle
  split_ifs with c1 c2 c3 c4 c5 c6 c7
  · rfl
  · exact (c1 ⟨by linarith only [h1, h2], by linarith only [h1, h2]⟩).elim
  · exact (c1 ⟨by linarith only [h1, h2], by linarith only [h1, h2]⟩).elim
  · exact (c1 ⟨by linarith only [h1, h2], by linarith only [h1, h2]⟩).elim
  · exact (c1 ⟨by linarith only [h1, h2], by linarith only [h1, h2]⟩).elim
  · exact (c1 ⟨by linarith only [h1, h2], by linarith only [h1, h2]⟩).elim
  · exact (c1 ⟨by linarith only [h1, h2], by linarith only [h1, h2]⟩).elim
  · exact (c1 ⟨by linarith only [h1, h2], by linarith only [h1, h2]⟩).elim

theorem of_angle_S (a : ℝ) (h1 : -dir_utils.edge ℝ 2 ≤ a) (h2 : a ≤ -dir_utils.edge ℝ 1) :
    dir_utils.compass_dir_name_of_angle a = "S" := by
  obtain ⟨o0, o1, o2, o3, o4, o5, o6, o7⟩ := edge_order
  unfold dir_utils.compass_dir_name_of_angle
  split_ifs with c1 c2 c3 c4 c5 c6 c7
  · exfalso; linarith only [c1.1, c1.2, h1, h2, o0, o1, o2, o3, o4, o5, o6, o7]
  · rfl
  · exact (c2 ⟨by linarith only [h1, h2], by linarith only [h1, h2]⟩).elim
  · exact (c2 ⟨by linarith only [h1, h2], by linarith only [h1, h2]⟩).elim
  · exact (c2 ⟨by linarith only [h1, h2], by linarith only [h1, h2]⟩).elim
  · exact (c2 ⟨by linarith only [h1, h2], by linarith only [h1, h2]⟩).elim
  · exact (c2 ⟨by linarith only [h1, h2], by linarith only [h1, h2]⟩).elim
  · exact (c2 ⟨by linarith only [h1, h2], by linarith only [h1, h2]⟩).elim

theorem of_angle_SE (a : ℝ) (h1 : -dir_utils.edge ℝ 1 < a) (h2 : a < -dir_utils.edge ℝ 0) :
    dir_utils.compass_dir_name_of_angle a = "SE" := by
  obtain ⟨o0, o1, o2, o3, o4, o5, o6, o7⟩ := edge_order
  unfold dir_utils.compass_dir_name_of_angle
  split_ifs with c1 c2 c3 c4 c5 c6 c7
  · exfalso; linarith only [c1.1, c1.2, h1, h2, o0, o1, o2, o3, o4, o5, o6, o7]
  · exfalso; linarith only [c2.1, c2.2, h1, h2, o0, o1, o2, o3, o4, o5, o6, o7]
  · rfl
  · exact (c3 ⟨by linarith only [h1, h2], by linarith only [h1, h2]⟩).elim
  · exact (c3 ⟨by linarith only [h1, h2], by linarith only [h1, h2]⟩).elim
  · exact (c3 ⟨by linarith only [h1, h2], by linarith only [h1, h2]⟩).elim
  · exact (c3 ⟨by linarith only [h1, h2], by linarith only [h1, h2]⟩).elim
  · exact (c3 ⟨by linarith only [h1, h2], by linarith only [h1, h2]⟩).elim

theorem of_angle_E (a : ℝ) (h1 : -dir_utils.edge ℝ 0 ≤ a) (h2 : a ≤ dir_utils.edge ℝ 0) :
    dir_utils.compass_dir_name_of_angle a = "E" := by
  obtain ⟨o0, o1, o2, o3, o4, o5, o6, o7⟩ := edge_order
  unfold dir_utils.compass_dir_name_of_angle
  split_ifs with c1 c2 c3 c4 c5 c6 c7
  · exfalso; linarith only [c1.1, c1.2, h1, h2, o0, o1, o2, o3, o4, o5, o6, o7]
  · exfalso; linarith only [c2.1, c2.2, h1, h2, o0, o1, o2, o3, o4, o5, o6, o7]
  · exfalso; linarith only [c3.1, c3.2, h1, h2, o0, o1, o2, o3, o4, o5, o6, o7]
  · rfl
  · exact (c4 ⟨by linarith only [h1, h2], by linarith only [h1, h2]⟩).elim
  · exact (c4 ⟨by linarith only [h1, h2], by linarith only [h1, h2]⟩).elim
  · exact (c4 ⟨by linarith only [h1, h2], by linarith only [h1, h2]⟩).elim
  · exact (c4 ⟨by linarith only [h1, h2], by linarith only [h1, h2]⟩).elim

theorem of_angle_NE (a : ℝ) (h1 : dir_utils.edge ℝ 0 < a) (h2 : a < dir_utils.edge ℝ 1) :
    dir_utils.compass_dir_name_of_angle a = "NE" := by
  obtain ⟨o0, o1, o2, o3, o4, o5, o6, o7⟩ := edge_order
  unfold dir_utils.compass_dir_name_of_angle
  split_ifs with c1 c2 c3 c4 c5 c6 c7
  · exfalso; linarith only [c1.1, c1.2, h1, h2, o0, o1, o2, o3, o4, o5, o6, o7]
  · exfalso; linarith only [c2.1, c2.2, h1, h2, o0, o1, o2, o3, o4, o5, o6, o7]
  · exfalso; linarith only [c3.1, c3.2, h1, h2, o0, o1, o2, o3, o4, o5, o6, o7]
  · exfalso; linarith only [c4.1, c4.2, h1, h2, o0, o1, o2, o3, o4, o5, o6, o7]
  · rfl
  · exact (c5 ⟨by linarith only [h1, h2], by linarith only [h1, h2]⟩).elim
  · exact (c5 ⟨by linarith only [h1, h2], by linarith only [h1, h2]⟩).elim
  · exact (c5 ⟨by linarith only [h1, h2], by linarith only [h1, h2]⟩).elim

theorem of_angle_N (a : ℝ) (h1 : dir_utils.edge ℝ 1 ≤ a) (h2 : a ≤ dir_utils.edge ℝ 2) :
    dir_utils.compass_dir_name_of_angle a = "N" := by
  obtain ⟨o0, o1, o2, o3, o4, o5, o6, o7⟩ := edge_order
  unfold dir_utils.compass_dir_name_of_angle
  split_ifs with c1 c2 c3 c4 c5 c6 c7
  · exfalso; linarith only [c1.1, c1.2, h1, h2, o0, o1, o2, o3, o4, o5, o6, o7]
  · exfalso; linarith only [c2.1, c2.2, h1, h2, o0, o1, o2, o3, o4, o5, o6, o7]
  · exfalso; linarith only [c3.1, c3.2, h1, h2, o0, o1, o2, o3, o4, o5, o6, o7]
  · exfalso; linarith only [c4.1, c4.2, h1, h2, o0, o1, o2, o3, o4, o5, o6, o7]
  · exfalso; linarith only [c5.1, c5.2, h1, h2, o0, o1, o2, o3, o4, o5, o6, o7]
  · rfl
  · exact (c6 ⟨by linarith only [h1, h2], by linarith only [h1, h2]⟩).elim
  · exact (c6 ⟨by linarith only [h1, h2], by linarith only [h1, h2]⟩).elim

theorem of_angle_NW (a : ℝ) (h1 : dir_utils.edge ℝ 2 < a) (h2 : a < dir_utils.edge ℝ 3) :
    dir_utils.compass_dir_name_of_angle a = "NW" := by
  obtain ⟨o0, o1, o2, o3, o4, o5, o6, o7⟩ := edge_order
  unfold dir_utils.compass_dir_name_of_angle
  split_ifs with c1 c2 c3 c4 c5 c6 c7
  · exfalso; linarith only [c1.1, c1.2, h1, h2, o0, o1, o2, o3, o4, o5, o6, o7]
  · exfalso; linarith only [c2.1, c2.2, h1, h2, o0, o1, o2, o3, o4, o5, o6, o7]
  · exfalso; linarith only [c3.1, c3.2, h1, h2, o0, o1, o2, o3, o4, o5, o6, o7]
  · exfalso; linarith only [c4.1, c4.2, h1, h2, o0, o1, o2, o3, o4, o5, o6, o7]
  · exfalso; linarith only [c5.1, c5.2, h1, h2, o0, o1, o2, o3, o4, o5, o6, o7]
  · exfalso; linarith only [c6.1, c6.2, h1, h2, o0, o1, o2, o3, o4, o5, o6, o7]
  · rfl
  · exact (c7 ⟨by linarith only [h1, h2], by linarith only [h1, h2]⟩).elim

theorem of_angle_W (a : ℝ) (h1 : dir_utils.edge ℝ 3 ≤ a) :
    dir_utils.compass_dir_name_of_angle a = "W" := by
  obtain ⟨o0, o1, o2, o3, o4, o5, o6, o7⟩ := edge_order
  unfold dir_utils.compass_dir_name_of_angle
  split_ifs with c1 c2 c3 c4 c5 c6 c7
  · exfalso; linarith only [c1.1, c1.2, h1, o0, o1, o2, o3, o4, o5, o6, o7]
  · exfalso; linarith only [c2.1, c2.2, h1, o0, o1, o2, o3, o4, o5, o6, o7]
  · exfalso; linarith only [c3.1, c3.2, h1, o0, o1, o2, o3, o4, o5, o6, o7]
  · exfalso; linarith only [c4.1, c4.2, h1, o0, o1, o2, o3, o4, o5, o6, o7]
  · exfalso; linarith only [c5.1, c5.2, h1, o0, o1, o2, o3, o4, o5, o6, o7]
  · exfalso; linarith only [c6.1, c6.2, h1, o0, o1, o2, o3, o4, o5, o6, o7]
  · exfalso; linarith only [c7.1, c7.2, h1, o0, o1, o2, o3, o4, o5, o6, o7]
  · rfl

theorem arg_of_re_pos (z : ℂ) (h : 0 < z.re) :
    Complex.arg z = Real.arctan (z.im / z.re) := by
  have hlt : |Complex.arg z| < Real.pi / 2 :=
    Complex.abs_arg_lt_pi_div_two_iff.mpr (Or.inl h)
  rw [abs_lt] at hlt
  rw [← Complex.tan_arg, Real.arctan_tan hlt.1 hlt.2]

theorem arg_diag :
    Complex.arg ⟨1, 1⟩ = Real.pi / 4 ∧ Complex.arg ⟨1, -1⟩ = -(Real.pi / 4) ∧
      Complex.arg ⟨-1, 1⟩ = 3 * Real.pi / 4 ∧ Complex.arg ⟨-1, -1⟩ = -(3 * Real.pi / 4) := by
  have h1 : Complex.arg ⟨1, 1⟩ = Real.pi / 4 := by
    rw [arg_of_re_pos _ (by norm_num)]
    norm_num [Real.arctan_one]
  have h2 : Complex.arg ⟨1, -1⟩ = -(Real.pi / 4) := by
    rw [arg_of_re_pos _ (by norm_num)]
    norm_num [Real.arctan_neg, Real.arctan_one]
  refine ⟨h1, h2, ?_, ?_⟩
  · have e : (⟨-1, 1⟩ : ℂ) = -⟨1, -1⟩ := by
      apply Complex.ext <;> simp
    rw [e, Complex.arg_neg_eq_arg_add_pi_of_im_neg (by norm_num), h2]
    ring
  · have e : (⟨-1, -1⟩ : ℂ) = -⟨1, 1⟩ := by
      apply Complex.ext <;> simp
    rw [e, Complex.arg_neg_eq_arg_sub_pi_of_im_pos (by norm_num), h1]
    ring

theorem arg_axis :
    Complex.arg ⟨1, 0⟩ = 0 ∧ Complex.arg ⟨0, 1⟩ = Real.pi / 2 ∧
      Complex.arg ⟨-1, 0⟩ = Real.pi ∧ Complex.arg ⟨0, -1⟩ = -(Real.pi / 2) := by
  refine ⟨?_, ?_, ?_, ?_⟩
  · exact Complex.arg_eq_zero_iff.mpr ⟨by norm_num, rfl⟩
  · exact Complex.arg_eq_pi_div_two_iff.mpr ⟨rfl, by norm_num⟩
  · exact Complex.arg_eq_pi_iff.mpr ⟨by norm_num, rfl⟩
  · exact Complex.arg_eq_neg_pi_div_two_iff.mpr ⟨rfl, by norm_num⟩

theorem sub_add_offset (from_pos offs : P) : P.sub (P.add from_pos offs) from_pos = offs := by
  obtain ⟨x, y⟩ := offs
  simp [P.sub, P.add]

theorem compass_dir_name_angle_eq (from_pos : P) (d : Dir) (hc : d ≠ Dir.center)
    (he : d ≠ Dir.END) :
    dir_utils.compass_dir_name_angle (fun y x : ℝ => Complex.arg ⟨x, y⟩) from_pos
        (P.add from_pos (dir_utils.offset d))
      = dir_utils.compass_name d := by
  obtain ⟨o0, o1, o2, o3, o4, o5, o6, o7⟩ := edge_order
  obtain ⟨d1, d2, d3, d4⟩ := arg_diag
  obtain ⟨a1, a2, a3, a4⟩ := arg_axis
  have pp := Real.pi_pos
  simp only [dir_utils.compass_dir_name_angle, sub_add_offset]
  cases d
  case center => exact absurd rfl hc
  case END => exact absurd rfl he
  case down_left =>
    simp only [dir_utils.offset, dir_utils.compass_name]
    norm_num
    rw [d4]
    exact of_angle_SW _ (by linarith) (by linarith)
  case down =>
    simp only [dir_utils.offset, dir_utils.compass_name]
    norm_num
    rw [a4]
    exact of_angle_S _ (by linarith) (by linarith)
  case down_right =>
    simp only [dir_utils.offset, dir_utils.compass_name]
    norm_num
    rw [d2]
    exact of_angle_SE _ (by linarith) (by linarith)
  case left =>
    simp only [dir_utils.offset, dir_utils.compass_name]
    norm_num
    rw [a3]
    exact of_angle_W _ (by linarith)
  case right =>
    simp only [dir_utils.offset, dir_utils.compass_name]
    norm_num
    rw [a1]
    exact of_angle_E _ (by linarith) (by linarith)
  case up_left =>
    simp only [dir_utils.offset, dir_utils.compass_name]
    norm_num
    rw [d3]
    exact of_angle_NW _ (by linarith) (by linarith)
  case up =>
    simp only [dir_utils.offset, dir_utils.compass_name]
    norm_num
    rw [a2]
    exact of_angle_N _ (by linarith) (by linarith)
  case up_right =>
    simp only [dir_utils.offset, dir_utils.compass_name]
    norm_num
    rw [d1]
    exact of_angle_NE _ (by linarith) (by linarith)

/-- C14: compass names from angles.  With `atan2` the exact real two-argument arctangent
(the argument of the complex number `x + y i`) and the `double` arithmetic of the edge
constants taken as exact, for every `from_pos` and each of the eight directions `d` other
than the centre, `compass_dir_name(from_pos, from_pos + offset(d), dst)` leaves in `dst`
the compass name of `d` with up = north. -/
theorem compass_dir_name_angle_spec (from_pos : P) (d : Dir) (hc : d ≠ Dir.center)
    (he : d ≠ Dir.END) :
    dir_utils.compass_dir_name_angle (fun y x : ℝ => Complex.arg ⟨x, y⟩) from_pos
        (P.add from_pos (dir_utils.offset d))
      = dir_utils.compass_name d :=
  compass_dir_name_angle_eq from_pos d hc he

theorem compass_dir_name_angle_spec_witness :
    dir_utils.compass_dir_name_angle (fun y x : ℝ => Complex.arg ⟨x, y⟩) ⟨3, 4⟩
        (P.add ⟨3, 4⟩ (dir_utils.offset Dir.up_right))
      = dir_utils.compass_name Dir.up_right :=
  compass_dir_name_angle_spec ⟨3, 4⟩ Dir.up_right (by decide) (by decide)

/-! ## Table-based compass names -/

/-- C16 (the code departs from the claim): for `Dir::up` the table-based overloads store
"W", while the compass name of up is "N" and the angle-based overload gives "N" for the
same step.  The lookup `compass_dir_names[o.x + 1][o.y + 1]` uses `x` as the row and `y`
as the column of a table laid out with `y` as the row, so every direction gets the name of
the direction with `x` and `y` exchanged. -/
theorem compass_dir_name_table_transposed :
    dir_utils.compass_dir_name_dir Dir.up = some "W" ∧
      dir_utils.compass_dir_name_offs (dir_utils.offset Dir.up) = some "W" ∧
      dir_utils.compass_name Dir.up = "N" ∧
      dir_utils.compass_dir_name_angle (fun y x : ℝ => Complex.arg ⟨x, y⟩) ⟨0, 0⟩
        (P.add ⟨0, 0⟩ (dir_utils.offset Dir.up)) = "N" ∧
      (∀ d : Dir, dir_utils.compass_dir_name_dir d
        = some (dir_utils.compass_name
            (dir_utils.dir ⟨(dir_utils.offset d).y, (dir_utils.offset d).x⟩))) ∧
      (∀ d : Dir, dir_utils.compass_dir_name_offs (dir_utils.offset d)
        = dir_utils.compass_dir_name_dir d) := by
  refine ⟨rfl, rfl, rfl, ?_, ?_, ?_⟩
  · exact compass_dir_name_angle_eq ⟨0, 0⟩ Dir.up (by decide) (by decide)
  · intro d
    cases d <;> rfl
  · intro d
    cases d <;> rfl

end RlUtils
